import Mathlib

/-!
Verification of the ledger-replay engine of `xalpha` (`src/xalpha/trade.py`).

The embedding below mirrors the `trade` class (`_addrow`, `_arrange`) and the
`itrade` class (`_arrange`).  Dates are modelled as natural numbers (day
indices), monetary and share amounts as rationals.  Code of the repository
that is not under `src/` (the `xalpha.remain` lot module, `myround` from
`xalpha.cons`, and the fund-info purchase/redemption interface
`shengou`/`shuhui`) is modelled from the spec; each such definition carries a
doc comment starting with `Modelled from the spec:`.
-/

/-- Modelled from the spec: fixed-precision rounding (`myround` of
`xalpha.cons`, module not under `src/`): all currency and share amounts are
rounded to 2 decimal places at the point they enter a ledger row. -/
def myround (q : ℚ) : ℚ := (⌊q * 100 + 1/2⌋ : ℚ) / 100

/-- Truncation toward zero, the behaviour of python `int()` on a number. -/
def pytrunc (q : ℚ) : ℤ := if 0 ≤ q then ⌊q⌋ else -⌊-q⌋

/-- Round half to even, the behaviour of python 3 `round()` to an integer. -/
def rhe (q : ℚ) : ℤ :=
  if q - (⌊q⌋ : ℚ) < 1/2 then ⌊q⌋
  else if (1/2 : ℚ) < q - (⌊q⌋ : ℚ) then ⌊q⌋ + 1
  else if ⌊q⌋ % 2 = 0 then ⌊q⌋ else ⌊q⌋ + 1

/-- Python `round(q, 1)`: round half to even at one decimal place. -/
def pyround1 (q : ℚ) : ℚ := (rhe (q * 10) : ℚ) / 10

/-- Line 287 of `trade.py`: `fenhongmark = round(10 * value - int(10 * value), 1)`. -/
def fenhongmark (v : ℚ) : ℚ := pyround1 (10 * v - (pytrunc (10 * v) : ℚ))

/-- Lines 287-293 of `trade.py`: when the tenths-digit fractional remainder of
the record value is exactly 0.5, toggle the dividend label (0 = cash payout,
1 = reinvest) for this record and strip the flag by rounding the value to one
decimal. Returns the effective (label, value) pair. -/
def applyFenhong (label : ℕ) (v : ℚ) : ℕ × ℚ :=
  if fenhongmark v = 1/2 ∧ label = 0 then (1, pyround1 v)
  else if fenhongmark v = 1/2 ∧ label = 1 then (0, pyround1 v)
  else (label, v)

/-- The decoded meaning of a transaction record value (spec section 3). -/
inductive TxAction
  | purchase (amount : ℚ)
  | redeemShares (share : ℚ)
  | redeemFrac (frac : ℚ)
  | noop
deriving DecidableEq

/-- Lines 295-315 of `trade.py`: branch structure of the value decode.
`value > 0` is a purchase of cash `value`; `value < -0.005` redeems the
absolute share count `-value`; `-0.005 <= value < 0` redeems the fraction
`-value / 0.005` of currently held shares; `value = 0` has no effect. -/
def decode_value (v : ℚ) : TxAction :=
  if 0 < v then .purchase v
  else if v < -(1/200) then .redeemShares (-v)
  else if v < 0 then .redeemFrac (-v / (1/200))
  else .noop

/-- C1: in the replay loop, a non-zero record value `v` (after stripping the
reinvest-toggle flag) is decoded as: `v > 0` purchases cash `v`; `v` below the
sentinel `-0.005` redeems the absolute share count `-v`; `v` strictly between
`-0.005` and `0` redeems the fraction `v / -0.005` of held shares; the
sentinel `-0.005` itself encodes selling 100% of the held shares. -/
theorem decode_value_cases (v : ℚ) :
    (0 < v → decode_value v = .purchase v) ∧
    (v < -(1/200) → decode_value v = .redeemShares (-v)) ∧
    (-(1/200) < v → v < 0 → decode_value v = .redeemFrac (v / -(1/200))) ∧
    (v = -(1/200) → decode_value v = .redeemFrac 1) := by
  refine ⟨fun h => ?_, fun h => ?_, fun h1 h2 => ?_, fun h => ?_⟩
  · simp only [decode_value]
    rw [if_pos h]
  · have h0 : ¬ 0 < v := by linarith
    simp only [decode_value]
    rw [if_neg h0, if_pos h]
  · have h0 : ¬ 0 < v := by linarith
    have h3 : ¬ v < -(1/200) := by linarith
    have he : -v / (1/200) = v / -(1/200) := by ring
    simp only [decode_value]
    rw [if_neg h0, if_neg h3, if_pos h2, he]
  · subst h
    have h0 : ¬ 0 < (-(1/200) : ℚ) := by norm_num
    have h3 : ¬ (-(1/200) : ℚ) < -(1/200) := by norm_num
    have h2 : (-(1/200) : ℚ) < 0 := by norm_num
    simp only [decode_value]
    rw [if_neg h0, if_neg h3, if_pos h2]
    norm_num

/-- Witness for C1: the four decode branches at concrete record values. -/
theorem decode_value_cases_witness :
    decode_value 5 = .purchase 5 ∧
    decode_value (-1) = .redeemShares (-(-1)) ∧
    decode_value (-(1/300)) = .redeemFrac ((-(1/300)) / -(1/200)) ∧
    decode_value (-(1/200)) = .redeemFrac 1 :=
  ⟨(decode_value_cases 5).1 (by norm_num),
   (decode_value_cases (-1)).2.1 (by norm_num),
   (decode_value_cases (-(1/300))).2.2.1 (by norm_num) (by norm_num),
   (decode_value_cases (-(1/200))).2.2.2 rfl⟩

/-- C6: a record value whose tenths-digit fractional remainder is exactly 0.5
toggles the dividend-handling mode for that one record in both directions
(cash-payout label 0 becomes reinvest label 1 and vice versa), and the flag is
stripped from the value by rounding to one decimal before the value's sign and
magnitude are interpreted. -/
theorem applyFenhong_toggle (v : ℚ) (h : fenhongmark v = 1/2) :
    applyFenhong 0 v = (1, pyround1 v) ∧ applyFenhong 1 v = (0, pyround1 v) := by
  constructor
  · simp [applyFenhong, h]
  · simp [applyFenhong, h]

/-- Witness for C6: the value 2000.05 carries the 0.5 flag in the tenths
digit; the mode is toggled both ways and the value is stripped to 2000. -/
theorem applyFenhong_toggle_witness :
    applyFenhong 0 (40001/20) = (1, 2000) ∧ applyFenhong 1 (40001/20) = (0, 2000) := by
  have hm : fenhongmark (40001/20) = 1/2 := by
    norm_num [fenhongmark, pytrunc, pyround1, rhe]
  have h := applyFenhong_toggle (40001/20) hm
  have hv : pyround1 (40001/20) = 2000 := by
    norm_num [pyround1, rhe]
  rw [hv] at h
  exact h

/-- A cash-flow ledger row: `cftable` columns `date`, `cash`, `share`. -/
structure CFRow where
  date : ℕ
  cash : ℚ
  share : ℚ
deriving DecidableEq

/-- A lot-remainder ledger row: `remtable` columns `date`, `rem`; a lot is a
(purchase date, remaining shares) pair. -/
structure RemRow where
  date : ℕ
  rem : List (ℕ × ℚ)
deriving DecidableEq

/-- The calendar annotation (`comment` column) on a price row: a float, or a
value of any other python type. -/
inductive Comment
  | num (q : ℚ)
  | other (s : String)
deriving DecidableEq

/-- A row of the price series: date, net asset value, and annotation. -/
structure PriceRow where
  date : ℕ
  netvalue : ℚ
  comment : Comment
deriving DecidableEq

/-- A transaction record row (the `status` table restricted to one code). -/
structure StatusRow where
  date : ℕ
  value : ℚ
deriving DecidableEq

/-- The read-only instrument information consumed by the replay loop
(`self.aim`): price series, special (corporate action) dates, conversion
lock dates, and the standing dividend mode (0 = cash payout, 1 = reinvest). -/
structure Aim where
  price : List PriceRow
  specialdate : List ℕ
  zhesuandate : List ℕ
  dividend_label : ℕ
deriving DecidableEq

/-- Mutable state of one instrument's replay: the two ledgers and the
`self.lastdate` attribute (absent until first set, hence `Option`). -/
structure TradeState where
  cftable : List CFRow
  remtable : List RemRow
  lastdate : Option ℕ
deriving DecidableEq

/-- The exceptions `_addrow` can raise.  Each is raised in the source with a
fixed message, recorded in `errMsg`. -/
inductive XErr
  | exhaustion
  | tradeBehaviorError
  | parserFailure
  | nameError
  | indexError
deriving DecidableEq

/-- The `args[0]` message of each exception as raised by the source. -/
def errMsg : XErr → String
  | .exhaustion => "no other info to be add into cashflow table"
  | .tradeBehaviorError => "You cannot sell first when you never buy"
  | .parserFailure => "comments not recognized"
  | .nameError => "name 'dcash2' is not defined"
  | .indexError => "single positional indexer is out-of-bounds"

/-- Total remaining shares across a lot list. -/
def remsum (rem : List (ℕ × ℚ)) : ℚ := (rem.map (fun l => l.2)).sum

/-- Modelled from the spec: `rm.buy` of the `xalpha.remain` module (not under
`src/`), the LotTracker `open` operation: append a new lot at the end. -/
def rm_buy (rem : List (ℕ × ℚ)) (share : ℚ) (date : ℕ) : List (ℕ × ℚ) :=
  rem ++ [(date, share)]

/-- Modelled from the spec: `rm.sell` of the `xalpha.remain` module (not under
`src/`), the LotTracker `consume` operation: walk lots oldest-first,
decrementing remaining shares until the requested amount is satisfied or the
lots are exhausted; return the amount actually removed and the new lots. -/
def rm_sell : List (ℕ × ℚ) → ℚ → ℕ → ℚ × List (ℕ × ℚ)
  | [], _, _ => (0, [])
  | l :: ls, sh, d =>
    if sh ≤ 0 then (0, l :: ls)
    else if l.2 ≤ sh then
      let t := rm_sell ls (sh - l.2) d
      (l.2 + t.1, t.2)
    else (sh, (l.1, l.2 - sh) :: ls)

/-- Modelled from the spec: `rm.trans` of the `xalpha.remain` module (not
under `src/`), the LotTracker `scale` operation: multiply every lot's
remaining shares by the factor, rounding each lot to the share precision. -/
def rm_trans (rem : List (ℕ × ℚ)) (coef : ℚ) (_date : ℕ) : List (ℕ × ℚ) :=
  rem.map (fun l => (l.1, myround (l.2 * coef)))

/-- Modelled from the spec: `rm.copy` of the `xalpha.remain` module (not under
`src/`), the LotTracker `clone` operation: a value copy of the lots. -/
def rm_copy (rem : List (ℕ × ℚ)) : List (ℕ × ℚ) := rem

/-- Net asset value effective on a date: the latest price row at or before it
(0 when none exists). -/
def navOn (aim : Aim) (date : ℕ) : ℚ :=
  (((aim.price.filter (fun p => decide (p.date ≤ date))).getLast?).map
    (fun p => p.netvalue)).getD 0

/-- Modelled from the spec: the purchase interface `aim.shengou` (fund-info
module, not under `src/`): the event is recorded on the given day, cash out is
the rounded purchase amount (negative = money invested), and the obtained
shares are the amount divided by the day's net asset value, rounded.  Returns
(record date, cash delta, share delta). -/
def shengou (aim : Aim) (value : ℚ) (date : ℕ) : ℕ × ℚ × ℚ :=
  (date, -(myround value), myround (value / navOn aim date))

/-- Modelled from the spec: the redemption interface `aim.shuhui` (fund-info
module, not under `src/`): redeem the requested share count, clamped to the
shares actually held (redemption shortfall is recoverable); cash in is the
sold shares times the day's net asset value, rounded.  Returns (record date,
cash delta, share delta). -/
def shuhui (aim : Aim) (share : ℚ) (date : ℕ) (rem : List (ℕ × ℚ)) : ℕ × ℚ × ℚ :=
  (date, myround (min share (remsum rem) * navOn aim date),
   -(myround (min share (remsum rem))))

/-- The stop condition of the date-advancing loop (lines 248-257 of
`trade.py`): the loop keeps advancing while the candidate day is neither a
special date nor a record date carrying a non-zero value. -/
def stopFun (aim : Aim) (status : List StatusRow) (d : ℕ) : Bool :=
  aim.specialdate.contains d ||
    status.any (fun r => r.date == d && decide (r.value ≠ 0))

/-- Fuel-indexed date-advancing loop (lines 248-262 of `trade.py`).  The loop
raises the exhaustion signal as soon as the candidate day passes `yesterday`
(the fixed processing horizon); otherwise it returns the first stop day.  With
fuel `yesterday + 2 - d` this is extensionally the source loop, since fuel can
only run out once the candidate day is already past the horizon. -/
def scanDateF (stop : ℕ → Bool) (yesterday : ℕ) : ℕ → ℕ → Except XErr ℕ
  | 0, _ => .error .exhaustion
  | fuel + 1, d =>
    if stop d then
      if yesterday + 1 ≤ d then .error .exhaustion else .ok d
    else if yesterday + 1 ≤ d + 1 then .error .exhaustion
    else scanDateF stop yesterday fuel (d + 1)

/-- The date-advancing loop of `_addrow` starting at candidate day `d`. -/
def scanDate (stop : ℕ → Bool) (yesterday d : ℕ) : Except XErr ℕ :=
  scanDateF stop yesterday (yesterday + 2 - d) d

/-- The candidate next day (lines 244-247 of `trade.py`): one day after
`self.lastdate` when set, otherwise one day after the last ledger row. -/
def nextStart (s : TradeState) (lastrow : CFRow) : ℕ :=
  match s.lastdate with
  | none => lastrow.date + 1
  | some ld => ld + 1

/-- Date resolution (lines 264-268 of `trade.py`): prefer the first price row
at or after the stop day; if none exists fall back to the last price row at or
before it; with no price rows at all, the pandas lookup raises. -/
def resolveDate (aim : Aim) (lastdate : ℕ) : Except XErr ℕ :=
  match (aim.price.filter (fun p => decide (lastdate ≤ p.date))).head? with
  | some p => .ok p.date
  | none =>
    match (aim.price.filter (fun p => decide (p.date ≤ lastdate))).getLast? with
    | some p => .ok p.date
    | none => .error .indexError

/-- Option lookup that raises like a pandas positional indexer. -/
def liftOpt : Option α → Except XErr α
  | none => .error .indexError
  | some a => .ok a

/-- The ordinary buy/sell handling of `_addrow` (lines 284-318 of `trade.py`):
take the last record value at or before the stop day, strip the
reinvest-toggle flag, and dispatch on the decoded value.  Returns the
effective label and the (record date, cash delta, share delta, new lots). -/
def recordAction (aim : Aim) (status : List StatusRow) (label0 : ℕ)
    (lastdate date : ℕ) (cftable : List CFRow) (rem0 : List (ℕ × ℚ)) :
    Except XErr (ℕ × ℕ × ℚ × ℚ × List (ℕ × ℚ)) :=
  match (status.filter (fun r => decide (r.date ≤ lastdate))).getLast? with
  | none => .error .indexError
  | some vr =>
    let lv := applyFenhong label0 vr.value
    match decode_value lv.2 with
    | .purchase v =>
      let t := shengou aim v date
      .ok (lv.1, t.1, t.2.1, t.2.2, rm_buy rem0 t.2.2 t.1)
    | .redeemShares sh =>
      let t := shuhui aim sh date rem0
      .ok (lv.1, t.1, t.2.1, t.2.2, (rm_sell rem0 (-t.2.2) t.1).2)
    | .redeemFrac frac =>
      let remainshare :=
        ((cftable.filter (fun row => decide (row.date ≤ date))).map
          (fun row => row.share)).sum
      let t := shuhui aim (remainshare * frac) date rem0
      .ok (lv.1, t.1, t.2.1, t.2.2, (rm_sell rem0 (-t.2.2) t.1).2)
    | .noop => .ok (lv.1, date, 0, 0, rem0)

/-- The corporate-action handling of `_addrow` (lines 319-354 of `trade.py`):
dispatch on the annotation of the price row at the resolved date.  A negative
float scales every open lot; a positive float pays a cash dividend (label 0)
or reinvests it (label 1); a zero float leaves the local deltas unassigned,
which in the source aborts with a python `NameError`; a non-float raises
`ParserFailure`.  Returns (cash delta, share delta, new lots). -/
def specialAction (cftable : List CFRow) (label : ℕ) (rem : List (ℕ × ℚ))
    (date : ℕ) (p : PriceRow) : Except XErr (ℚ × ℚ × List (ℕ × ℚ)) :=
  match p.comment with
  | .num c =>
    if c < 0 then
      .ok (0, (rem.map (fun l => myround (l.2 * (-c - 1)))).sum,
           rm_trans rem (-c) date)
    else if 0 < c ∧ label = 0 then
      .ok (myround ((cftable.map (fun row => row.share)).sum * c), 0, rm_copy rem)
    else if 0 < c ∧ label = 1 then
      let ds := myround ((cftable.map (fun row => row.share)).sum * (c / p.netvalue))
      .ok (0, ds, rm_buy rem ds date)
    else .error .nameError
  | .other _ => .error .parserFailure

/-- The empty-ledger branch of `_addrow` (lines 229-241 of `trade.py`): scan
for the first non-zero record; none means exhaustion; a positive value is an
initial purchase opening the first lot; otherwise selling before any purchase
raises `TradeBehaviorError`. -/
def addrowEmpty (aim : Aim) (status : List StatusRow) (s : TradeState) :
    Except XErr TradeState :=
  match status.find? (fun r => decide (r.value ≠ 0)) with
  | none => .error .exhaustion
  | some r =>
    if 0 < r.value then
      let t := shengou aim r.value r.date
      .ok ⟨s.cftable ++ [⟨t.1, t.2.1, t.2.2⟩],
           s.remtable ++ [⟨t.1, rm_buy [] t.2.2 t.1⟩], s.lastdate⟩
    else .error .tradeBehaviorError

/-- The advancing branch of `_addrow` (lines 242-362 of `trade.py`): advance
the candidate day to the next stop day, resolve it against the price series,
apply the ordinary record (when the stop day is a record day and the resolved
date is not a conversion lock day) and the corporate action (when the resolved
date is special), then append one row to each ledger, both dated at the record
date returned by the trade interface. -/
def addrowAdvance (aim : Aim) (status : List StatusRow) (yesterday : ℕ)
    (s : TradeState) (lastrow : CFRow) : Except XErr TradeState :=
  match scanDate (stopFun aim status) yesterday (nextStart s lastrow) with
  | .error e => .error e
  | .ok lastdate =>
    match resolveDate aim lastdate with
    | .error e => .error e
    | .ok date =>
      match liftOpt s.remtable.getLast? with
      | .error e => .error e
      | .ok remrow =>
        match
          (if status.any (fun r => r.date == lastdate) &&
              !(aim.zhesuandate.contains date) then
            recordAction aim status aim.dividend_label lastdate date
              s.cftable remrow.rem
          else .ok (aim.dividend_label, date, 0, 0, remrow.rem)) with
        | .error e => .error e
        | .ok (label, rdate, cash1, share1, rem1) =>
          if aim.specialdate.contains date then
            match liftOpt (aim.price.find? (fun p => p.date == date)) with
            | .error e => .error e
            | .ok prow =>
              match specialAction s.cftable label rem1 date prow with
              | .error e => .error e
              | .ok (dcash2, dshare2, rem2) =>
                .ok ⟨s.cftable ++ [⟨rdate, cash1 + dcash2, share1 + dshare2⟩],
                     s.remtable ++ [⟨rdate, rem2⟩], some (max lastdate date)⟩
          else
            .ok ⟨s.cftable ++ [⟨rdate, cash1, share1⟩],
                 s.remtable ++ [⟨rdate, rem1⟩], some (max lastdate date)⟩

/-- One `_addrow` step: dispatch on whether the cash-flow ledger is empty. -/
def addrow (aim : Aim) (status : List StatusRow) (yesterday : ℕ)
    (s : TradeState) : Except XErr TradeState :=
  match s.cftable.getLast? with
  | none => addrowEmpty aim status s
  | some lastrow => addrowAdvance aim status yesterday s lastrow

/-- The `_arrange` driver (lines 206-214 of `trade.py`), with fuel bounding
the number of loop iterations: repeatedly call `_addrow`; catch an exception
exactly when its message is the exhaustion message and stop; re-raise every
other exception. -/
def arrangeN (aim : Aim) (status : List StatusRow) (yesterday : ℕ) :
    ℕ → TradeState → Except XErr TradeState
  | 0, s => .ok s
  | n + 1, s =>
    match addrow aim status yesterday s with
    | .ok s' => arrangeN aim status yesterday n s'
    | .error e =>
      if errMsg e = "no other info to be add into cashflow table" then .ok s
      else .error e

/-- A record row of an exchange-traded (`itrade`) instrument. -/
structure IRow where
  date : ℕ
  value : ℚ
  share : ℚ
  fee : ℚ
deriving DecidableEq

/-- One row of `itrade._arrange` (lines 647-660 of `trade.py`): with a zero
share count the cash is the negated value; with a zero value the share delta
is the recorded share count; otherwise cash is `-value * share - abs(fee)`. -/
def itrade_row (r : IRow) : CFRow :=
  if r.share = 0 then ⟨r.date, -r.value, 0⟩
  else if r.value = 0 then ⟨r.date, 0, r.share⟩
  else ⟨r.date, -r.value * r.share - |r.fee|, r.share⟩

/-- The whole of `itrade._arrange`: the cash-flow ledger is the row-wise
image of the record table. -/
def itrade_arrange (status : List IRow) : List CFRow := status.map itrade_row

/-- Dates of the cash-flow ledger rows. -/
def cfDates (s : TradeState) : List ℕ := s.cftable.map CFRow.date

/-- Strict increase of a date list. -/
def strictIncreasing (l : List ℕ) : Prop := List.Chain' (fun a b => a < b) l

/-- C10: for an exchange-traded record with non-zero
value and non-zero share count the cash-flow row's cash is
`-(value * share) - |fee|`, so the fee always reduces cash for buys and sells
alike; with `share = 0` the cash is `-value` and the share delta 0; with
`value = 0` the cash is 0 and the share delta the recorded share count. -/
theorem itrade_cash_rule (r : IRow) :
    (r.value ≠ 0 → r.share ≠ 0 →
      itrade_row r = ⟨r.date, -(r.value * r.share) - |r.fee|, r.share⟩) ∧
    (r.share = 0 → itrade_row r = ⟨r.date, -r.value, 0⟩) ∧
    (r.value = 0 → itrade_row r = ⟨r.date, 0, r.share⟩) ∧
    itrade_arrange [r] = [itrade_row r] := by
  refine ⟨fun hv hs => ?_, fun hs => ?_, fun hv => ?_, rfl⟩
  · simp only [itrade_row]
    rw [if_neg hs, if_neg hv]
    simp only [CFRow.mk.injEq, and_true, true_and, eq_self_iff_true]
    ring
  · simp [itrade_row, hs]
  · by_cases hs : r.share = 0
    · simp [itrade_row, hs, hv]
    · simp only [itrade_row]
      rw [if_neg hs, if_pos hv]

/-- Witness for C10: a buy of 2 shares at price 10 with fee 1 produces cash
-21; degenerate rows behave as stated. -/
theorem itrade_cash_rule_witness :
    itrade_row ⟨5, 10, 2, 1⟩ = ⟨5, -21, 2⟩ ∧
    itrade_row ⟨6, 10, 0, 1⟩ = ⟨6, -10, 0⟩ ∧
    itrade_row ⟨7, 0, 3, 1⟩ = ⟨7, 0, 3⟩ := by
  have h1 := (itrade_cash_rule ⟨5, 10, 2, 1⟩).1 (by norm_num) (by norm_num)
  have h2 := (itrade_cash_rule ⟨6, 10, 0, 1⟩).2.1 (by norm_num)
  have h3 := (itrade_cash_rule ⟨7, 0, 3, 1⟩).2.2.1 (by norm_num)
  refine ⟨?_, ?_, ?_⟩
  · rw [h1]
    norm_num
  · exact h2
  · exact h3

/-- Counterexample for C2: with one open lot of 1000 shares and a conversion
annotation `r = -0.1`, the code computes the share delta
`round(1000 * (-r - 1)) = -900` and rescales the lot by `-r = 0.1`, so the
resulting remaining shares are 100, not 900 as the claim states. -/
theorem specialAction_conversion_cex :
    specialAction [] 0 [(0, 1000)] 3 ⟨3, 1, Comment.num (-(1/10))⟩ =
      .ok (0, -900, [(0, 100)]) ∧
    remsum [(0, (100 : ℚ))] ≠ 900 ∧ (1000 : ℚ) + -900 ≠ 900 := by
  refine ⟨?_, by norm_num [remsum], by norm_num⟩
  norm_num [specialAction, rm_trans, myround]

/-- C2 as amended: for a conversion annotation that is a negative ratio `r`,
the cash delta is 0 and the share delta is the sum over open lots of
`round(shares * (-r - 1))`, each lot being rescaled by `-r`; in particular one
open lot of 1000 shares with `r = -0.1` yields share delta -900, hence 100
remaining shares, and cash delta 0. -/
theorem specialAction_conversion (cft : List CFRow) (label : ℕ)
    (rem : List (ℕ × ℚ)) (date : ℕ) (nv : ℚ) (r : ℚ) (hr : r < 0) :
    specialAction cft label rem date ⟨date, nv, Comment.num r⟩ =
      .ok (0, (rem.map (fun l => myround (l.2 * (-r - 1)))).sum,
           rm_trans rem (-r) date) := by
  simp only [specialAction]
  rw [if_pos hr]

/-- Witness for C2: a single lot of 50 shares under a conversion annotation
`r = -2` (scale factor 2) gains `round(50 * 1) = 50` shares. -/
theorem specialAction_conversion_witness :
    specialAction [] 0 [(2, 50)] 4 ⟨4, 1, Comment.num (-2)⟩ =
      .ok (0, 50, [(2, 100)]) := by
  have h := specialAction_conversion [] 0 [(2, 50)] 4 1 (-2) (by norm_num)
  rw [h]
  norm_num [rm_trans, myround]

/-- C5: for a dividend annotation with payout `p` per share under the
reinvest mode (label 1), the cash delta is 0, the share delta is
`round(total_shares_held * p / nav)`, and a new lot dated at the event date is
opened for the new shares; in particular 1000 held shares, `p = 0.05`,
`nav = 2` yield 25 new shares. -/
theorem specialAction_reinvest :
    (∀ (cft : List CFRow) (rem : List (ℕ × ℚ)) (date : ℕ) (nv p : ℚ),
      0 < p →
      specialAction cft 1 rem date ⟨date, nv, Comment.num p⟩ =
        .ok (0, myround ((cft.map (fun row => row.share)).sum * (p / nv)),
             rm_buy rem
               (myround ((cft.map (fun row => row.share)).sum * (p / nv)))
               date)) ∧
    specialAction [⟨1, -1000, 1000⟩] 1 [] 5 ⟨5, 2, Comment.num (1/20)⟩ =
      .ok (0, 25, [(5, 25)]) := by
  have hgen : ∀ (cft : List CFRow) (rem : List (ℕ × ℚ)) (date : ℕ) (nv p : ℚ),
      0 < p →
      specialAction cft 1 rem date ⟨date, nv, Comment.num p⟩ =
        .ok (0, myround ((cft.map (fun row => row.share)).sum * (p / nv)),
             rm_buy rem
               (myround ((cft.map (fun row => row.share)).sum * (p / nv)))
               date) := by
    intro cft rem date nv p hp
    have h0 : ¬ p < 0 := by linarith
    have h1 : ¬ (0 < p ∧ (1 : ℕ) = 0) := by simp
    simp only [specialAction]
    rw [if_neg h0]
    simp [hp]
  refine ⟨hgen, ?_⟩
  have h := hgen [⟨1, -1000, 1000⟩] [] 5 2 (1/20) (by norm_num)
  rw [h]
  norm_num [rm_buy, myround]

/-- Witness for C5: 200 held shares, payout 2 per share, nav 4, reinvest mode
opens a new lot of 100 shares dated at the event date. -/
theorem specialAction_reinvest_witness :
    specialAction [⟨2, -200, 200⟩] 1 [(2, 200)] 7 ⟨7, 4, Comment.num 2⟩ =
      .ok (0, 100, [(2, 200), (7, 100)]) := by
  have h := specialAction_reinvest.1 [⟨2, -200, 200⟩] [(2, 200)] 7 4 2 (by norm_num)
  rw [h]
  norm_num [rm_buy, myround]

/-- Counterexample for C8: the annotation failure does not name the offending
date or value: a float annotation that is neither negative nor positive
aborts with an undefined-variable error, not the parse/classification
failure, and the parse failure raised for non-float annotations carries the
same fixed message for every date and value. -/
theorem specialAction_unrecognized_cex :
    specialAction [] 0 [] 3 ⟨3, 1, Comment.num 0⟩ = .error .nameError ∧
    XErr.nameError ≠ XErr.parserFailure ∧
    specialAction [] 0 [] 4 ⟨4, 7, Comment.other "abc"⟩ = .error .parserFailure ∧
    specialAction [] 0 [] 9 ⟨9, 8, Comment.other "xyz"⟩ = .error .parserFailure := by
  refine ⟨?_, by simp, rfl, rfl⟩
  norm_num [specialAction]

/-- C8 as amended: an annotation of any shape other than a negative ratio or
positive payout aborts the build rather than silently proceeding: a non-float
annotation raises the parse failure with the fixed message "comments not
recognized" (which names no date or value), and a float annotation equal to 0
aborts with an undefined-variable error. -/
theorem specialAction_unrecognized :
    (∀ (cft : List CFRow) (label : ℕ) (rem : List (ℕ × ℚ)) (date : ℕ)
        (nv : ℚ) (str : String),
      specialAction cft label rem date ⟨date, nv, Comment.other str⟩ =
        .error .parserFailure) ∧
    (∀ (cft : List CFRow) (label : ℕ) (rem : List (ℕ × ℚ)) (date : ℕ)
        (nv : ℚ),
      specialAction cft label rem date ⟨date, nv, Comment.num 0⟩ =
        .error .nameError) ∧
    errMsg .parserFailure = "comments not recognized" := by
  refine ⟨fun cft label rem date nv str => rfl, fun cft label rem date nv => ?_, rfl⟩
  norm_num [specialAction]

/-- C4: with an empty cash-flow ledger, a first non-zero record with
non-positive value aborts with `TradeBehaviorError` ("cannot sell before any
purchase") and produces no ledger row, while a positive first value is an
initial purchase that appends one row and opens the first lot at the record
date. -/
theorem addrow_first_record (aim : Aim) (status : List StatusRow) (y : ℕ)
    (s : TradeState) (hc : s.cftable = []) :
    (∀ r, status.find? (fun x => decide (x.value ≠ 0)) = some r →
      r.value ≤ 0 → addrow aim status y s = .error .tradeBehaviorError) ∧
    (∀ r, status.find? (fun x => decide (x.value ≠ 0)) = some r →
      0 < r.value → addrow aim status y s =
        .ok ⟨s.cftable ++ [⟨r.date, -(myround r.value),
               (shengou aim r.value r.date).2.2⟩],
             s.remtable ++ [⟨r.date,
               [(r.date, (shengou aim r.value r.date).2.2)]⟩],
             s.lastdate⟩) := by
  constructor
  · intro r hfind hneg
    have hnp : ¬ 0 < r.value := by linarith
    unfold addrow
    rw [hc]
    simp only [List.getLast?_nil]
    unfold addrowEmpty
    rw [hfind]
    dsimp only
    rw [if_neg hnp]
  · intro r hfind hpos
    unfold addrow
    rw [hc]
    simp only [List.getLast?_nil]
    unfold addrowEmpty
    rw [hfind]
    dsimp only
    rw [if_pos hpos]
    simp [shengou, rm_buy, hc]

/-- Witness for C4: a lone sell record aborts; a lone buy record of 8 on a
day with net value 2 opens the ledger with one row and one 4-share lot. -/
theorem addrow_first_record_witness :
    addrow ⟨[⟨4, 2, Comment.num 0⟩], [], [], 0⟩ [⟨3, -5⟩] 10 ⟨[], [], none⟩ =
      .error .tradeBehaviorError ∧
    addrow ⟨[⟨4, 2, Comment.num 0⟩], [], [], 0⟩ [⟨4, 8⟩] 10 ⟨[], [], none⟩ =
      .ok ⟨[⟨4, -8, 4⟩], [⟨4, [(4, 4)]⟩], none⟩ := by
  constructor
  · have hfind : ([⟨3, -5⟩] : List StatusRow).find?
        (fun x => decide (x.value ≠ 0)) = some ⟨3, -5⟩ := by
      norm_num [List.find?]
    exact (addrow_first_record ⟨[⟨4, 2, Comment.num 0⟩], [], [], 0⟩
      [⟨3, -5⟩] 10 ⟨[], [], none⟩ rfl).1 ⟨3, -5⟩ hfind (by norm_num)
  · have hfind : ([⟨4, 8⟩] : List StatusRow).find?
        (fun x => decide (x.value ≠ 0)) = some ⟨4, 8⟩ := by
      norm_num [List.find?]
    have h := (addrow_first_record ⟨[⟨4, 2, Comment.num 0⟩], [], [], 0⟩
      [⟨4, 8⟩] 10 ⟨[], [], none⟩ rfl).2 ⟨4, 8⟩ hfind (by norm_num)
    rw [h]
    norm_num [shengou, navOn, myround, List.filter]

theorem scanDateF_error_exhaustion (stop : ℕ → Bool) (y : ℕ) :
    ∀ fuel d e, scanDateF stop y fuel d = .error e → e = XErr.exhaustion := by
  intro fuel
  induction fuel with
  | zero =>
    intro d e h
    simp only [scanDateF] at h
    injection h with h
    exact h.symm
  | succ n ih =>
    intro d e h
    simp only [scanDateF] at h
    split at h
    · split at h
      · injection h with h
        exact h.symm
      · exact Except.noConfusion h
    · split at h
      · injection h with h
        exact h.symm
      · exact ih (d + 1) e h

theorem scanDateF_ok_le (stop : ℕ → Bool) (y : ℕ) :
    ∀ fuel d d2, scanDateF stop y fuel d = .ok d2 → d ≤ d2 := by
  intro fuel
  induction fuel with
  | zero =>
    intro d d2 h
    simp only [scanDateF] at h
    exact Except.noConfusion h
  | succ n ih =>
    intro d d2 h
    simp only [scanDateF] at h
    split at h
    · split at h
      · exact Except.noConfusion h
      · injection h with h
        omega
    · split at h
      · exact Except.noConfusion h
      · have := ih (d + 1) d2 h
        omega

theorem scanDate_ok_le (stop : ℕ → Bool) (y d d2 : ℕ)
    (h : scanDate stop y d = .ok d2) : d ≤ d2 :=
  scanDateF_ok_le stop y (y + 2 - d) d d2 h

theorem scanDateF_exhaustion_iff (stop : ℕ → Bool) (y : ℕ) :
    ∀ fuel d, fuel = y + 2 - d →
      (scanDateF stop y fuel d = .error XErr.exhaustion ↔
        ∀ k, d ≤ k → k ≤ y → stop k = false) := by
  intro fuel
  induction fuel with
  | zero =>
    intro d hf
    have hd : y + 2 ≤ d := by omega
    constructor
    · intro _ k hk1 hk2
      exact (by omega : False).elim
    · intro _
      rfl
  | succ n ih =>
    intro d hf
    simp only [scanDateF]
    by_cases hs : stop d = true
    · rw [if_pos hs]
      by_cases hy : y + 1 ≤ d
      · rw [if_pos hy]
        constructor
        · intro _ k hk1 hk2
          exact (by omega : False).elim
        · intro _
          rfl
      · rw [if_neg hy]
        constructor
        · intro h
          exact Except.noConfusion h
        · intro hall
          have hd := hall d le_rfl (by omega)
          rw [hs] at hd
          exact Bool.noConfusion hd
    · have hs' : stop d = false := by
        simpa using hs
      rw [if_neg hs]
      by_cases hy : y + 1 ≤ d + 1
      · rw [if_pos hy]
        constructor
        · intro _ k hk1 hk2
          have hk : k = d := by omega
          rw [hk]
          exact hs'
        · intro _
          rfl
      · rw [if_neg hy]
        rw [ih (d + 1) (by omega)]
        constructor
        · intro hall k hk1 hk2
          rcases Nat.eq_or_lt_of_le hk1 with he | hlt
          · rw [← he]
            exact hs'
          · exact hall k (by omega) hk2
        · intro hall k hk1 hk2
          exact hall k (by omega) hk2

theorem scanDate_exhaustion_iff (stop : ℕ → Bool) (y d : ℕ) :
    scanDate stop y d = .error XErr.exhaustion ↔
      ∀ k, d ≤ k → k ≤ y → stop k = false :=
  scanDateF_exhaustion_iff stop y (y + 2 - d) d rfl

theorem liftOpt_error {α : Type} (o : Option α) (e : XErr)
    (h : liftOpt o = .error e) : e = XErr.indexError := by
  cases o with
  | none =>
    injection h with h
    exact h.symm
  | some a =>
    exact Except.noConfusion h

theorem resolveDate_error (aim : Aim) (ld : ℕ) (e : XErr)
    (h : resolveDate aim ld = .error e) : e = XErr.indexError := by
  unfold resolveDate at h
  split at h
  · exact Except.noConfusion h
  · split at h
    · exact Except.noConfusion h
    · injection h with h
      exact h.symm

theorem recordAction_error (aim : Aim) (status : List StatusRow) (label0 : ℕ)
    (lastdate date : ℕ) (cft : List CFRow) (rem0 : List (ℕ × ℚ)) (e : XErr)
    (h : recordAction aim status label0 lastdate date cft rem0 = .error e) :
    e = XErr.indexError := by
  unfold recordAction at h
  split at h
  · injection h with h
    exact h.symm
  · dsimp only at h
    split at h <;> exact Except.noConfusion h

theorem recordAction_rdate (aim : Aim) (status : List StatusRow) (label0 : ℕ)
    (lastdate date : ℕ) (cft : List CFRow) (rem0 : List (ℕ × ℚ))
    (label rdate : ℕ) (c sh : ℚ) (rm : List (ℕ × ℚ))
    (h : recordAction aim status label0 lastdate date cft rem0 =
      .ok (label, rdate, c, sh, rm)) : rdate = date := by
  unfold recordAction at h
  split at h
  · exact Except.noConfusion h
  · dsimp only at h
    split at h <;>
      (simp only [shengou, shuhui, Except.ok.injEq, Prod.mk.injEq] at h;
       exact h.2.1.symm)

theorem specialAction_error (cft : List CFRow) (label : ℕ)
    (rem : List (ℕ × ℚ)) (date : ℕ) (p : PriceRow) (e : XErr)
    (h : specialAction cft label rem date p = .error e) :
    e = XErr.parserFailure ∨ e = XErr.nameError := by
  unfold specialAction at h
  split at h
  · split at h
    · exact Except.noConfusion h
    · split at h
      · exact Except.noConfusion h
      · split at h
        · exact Except.noConfusion h
        · injection h with h
          exact Or.inr h.symm
  · injection h with h
    exact Or.inl h.symm

/-- C9: every successful `_addrow` step appends exactly one row to the
cash-flow ledger and one row to the lot-remainder ledger, both carrying the
same date; hence the two ledgers stay the same length and index-aligned on
dates throughout the replay. -/
theorem addrow_appends_one (aim : Aim) (status : List StatusRow) (y : ℕ)
    (s s' : TradeState) (h : addrow aim status y s = .ok s') :
    (∃ d c sh rem, s'.cftable = s.cftable ++ [CFRow.mk d c sh] ∧
      s'.remtable = s.remtable ++ [RemRow.mk d rem]) ∧
    (s.cftable.map CFRow.date = s.remtable.map RemRow.date →
      s'.cftable.map CFRow.date = s'.remtable.map RemRow.date ∧
      s'.cftable.length = s'.remtable.length) := by
  have hmain : ∃ d c sh rem, s'.cftable = s.cftable ++ [CFRow.mk d c sh] ∧
      s'.remtable = s.remtable ++ [RemRow.mk d rem] := by
    unfold addrow at h
    split at h
    · unfold addrowEmpty at h
      split at h
      · exact Except.noConfusion h
      · split at h
        · injection h with h
          subst h
          exact ⟨_, _, _, _, rfl, rfl⟩
        · exact Except.noConfusion h
    · unfold addrowAdvance at h
      split at h
      · exact Except.noConfusion h
      · split at h
        · exact Except.noConfusion h
        · split at h
          · exact Except.noConfusion h
          · split at h
            · exact Except.noConfusion h
            · split at h
              · split at h
                · exact Except.noConfusion h
                · split at h
                  · exact Except.noConfusion h
                  · injection h with h
                    subst h
                    exact ⟨_, _, _, _, rfl, rfl⟩
              · injection h with h
                subst h
                exact ⟨_, _, _, _, rfl, rfl⟩
  obtain ⟨d, c, sh, rem, h1, h2⟩ := hmain
  refine ⟨⟨d, c, sh, rem, h1, h2⟩, fun hal => ?_⟩
  have hlen : s.cftable.length = s.remtable.length := by
    have := congrArg List.length hal
    simpa using this
  constructor
  · rw [h1, h2, List.map_append, List.map_append, hal]
    rfl
  · rw [h1, h2]
    simp [hlen]

/-- Witness for C9: a concrete successful step keeps the two ledgers
index-aligned on dates. -/
theorem addrow_appends_one_witness :
    addrow ⟨[⟨4, 2, Comment.num 0⟩], [], [], 0⟩ [⟨4, 8⟩] 10 ⟨[], [], none⟩ =
      .ok ⟨[⟨4, -8, 4⟩], [⟨4, [(4, 4)]⟩], none⟩ ∧
    ([⟨4, -8, 4⟩] : List CFRow).map CFRow.date =
      ([⟨4, [(4, 4)]⟩] : List RemRow).map RemRow.date := by
  have hstep : addrow ⟨[⟨4, 2, Comment.num 0⟩], [], [], 0⟩ [⟨4, 8⟩] 10
      ⟨[], [], none⟩ = .ok ⟨[⟨4, -8, 4⟩], [⟨4, [(4, 4)]⟩], none⟩ := by
    norm_num [addrow, addrowEmpty, List.find?, shengou, navOn, myround,
      rm_buy, List.filter]
  refine ⟨hstep, ?_⟩
  exact (addrow_appends_one _ _ _ _ _ hstep).2 rfl |>.1

theorem errMsg_exhaustion_iff (e : XErr) :
    errMsg e = "no other info to be add into cashflow table" ↔
      e = XErr.exhaustion := by
  cases e <;> simp [errMsg]

theorem addrow_exhaustion_iff (aim : Aim) (status : List StatusRow) (y : ℕ)
    (s : TradeState) (lastrow : CFRow)
    (hl : s.cftable.getLast? = some lastrow) :
    addrow aim status y s = .error XErr.exhaustion ↔
      scanDate (stopFun aim status) y (nextStart s lastrow) =
        .error XErr.exhaustion := by
  unfold addrow
  rw [hl]
  dsimp only
  unfold addrowAdvance
  cases hscan : scanDate (stopFun aim status) y (nextStart s lastrow) with
  | error e =>
    have he := scanDateF_error_exhaustion (stopFun aim status) y _ _ e hscan
    subst he
    simp
  | ok d =>
    dsimp only
    constructor
    · intro h
      exfalso
      cases hr : resolveDate aim d with
      | error e2 =>
        rw [hr] at h
        dsimp only at h
        injection h with h
        have := resolveDate_error aim d e2 hr
        rw [this] at h
        exact XErr.noConfusion h
      | ok date =>
        rw [hr] at h
        dsimp only at h
        cases hopt : liftOpt s.remtable.getLast? with
        | error e3 =>
          rw [hopt] at h
          dsimp only at h
          injection h with h
          have := liftOpt_error _ e3 hopt
          rw [this] at h
          exact XErr.noConfusion h
        | ok remrow =>
          rw [hopt] at h
          dsimp only at h
          split at h
          · rename_i e4 heq
            split at heq
            · have := recordAction_error _ _ _ _ _ _ _ e4 heq
              injection h with h
              rw [this] at h
              exact XErr.noConfusion h
            · exact Except.noConfusion heq
          · split at h
            · split at h
              · rename_i e5 heq
                have := liftOpt_error _ e5 heq
                injection h with h
                rw [this] at h
                exact XErr.noConfusion h
              · split at h
                · rename_i e6 heq
                  have := specialAction_error _ _ _ _ _ e6 heq
                  injection h with h
                  rcases this with h6 | h6 <;>
                    (rw [h6] at h; exact XErr.noConfusion h)
                · exact Except.noConfusion h
            · exact Except.noConfusion h
    · intro h
      exact Except.noConfusion h

/-- C7 as amended: the driver catches exactly the exhaustion signal (whose
fixed message characterises it among the raised exceptions) and re-raises
every other exception; with a non-empty ledger, `_addrow` signals exhaustion
precisely when the date-advancing scan does, and the scan signals exhaustion
precisely when no special or non-zero-record day lies between the candidate
date and the `yesterday` horizon, i.e. when date resolution advances past the
horizon.  (With an empty ledger and no non-zero record the same signal is
raised degenerately, see the counterexample.) -/
theorem exhaustion_protocol :
    (∀ e, (errMsg e = "no other info to be add into cashflow table" ↔
      e = XErr.exhaustion)) ∧
    (∀ aim status y n s, addrow aim status y s = .error XErr.exhaustion →
      arrangeN aim status y (n + 1) s = .ok s) ∧
    (∀ aim status y n s e, addrow aim status y s = .error e →
      e ≠ XErr.exhaustion → arrangeN aim status y (n + 1) s = .error e) ∧
    (∀ aim status y s lastrow, s.cftable.getLast? = some lastrow →
      (addrow aim status y s = .error XErr.exhaustion ↔
        scanDate (stopFun aim status) y (nextStart s lastrow) =
          .error XErr.exhaustion)) ∧
    (∀ stop y d, scanDate stop y d = .error XErr.exhaustion ↔
      ∀ k, d ≤ k → k ≤ y → stop k = false) := by
  refine ⟨errMsg_exhaustion_iff, ?_, ?_,
    fun aim status y s lastrow hl => addrow_exhaustion_iff aim status y s lastrow hl,
    scanDate_exhaustion_iff⟩
  · intro aim status y n s h
    unfold arrangeN
    rw [h]
    dsimp only
    rw [if_pos]
    rfl
  · intro aim status y n s e h he
    unfold arrangeN
    rw [h]
    dsimp only
    rw [if_neg]
    intro hh
    exact he ((errMsg_exhaustion_iff e).mp hh)

/-- Counterexample for C7: with an empty ledger and no non-zero record, the
exhaustion signal is raised and the loop terminates normally whatever the
horizon is, even though date resolution never advanced past it (the empty
branch of `_addrow` does not consult the horizon at all). -/
theorem exhaustion_protocol_cex :
    addrow ⟨[], [], [], 0⟩ [] 0 ⟨[], [], none⟩ = .error XErr.exhaustion ∧
    addrow ⟨[], [], [], 0⟩ [] 1000000 ⟨[], [], none⟩ =
      .error XErr.exhaustion ∧
    arrangeN ⟨[], [], [], 0⟩ [] 1000000 1 ⟨[], [], none⟩ =
      .ok ⟨[], [], none⟩ := by
  refine ⟨rfl, rfl, ?_⟩
  simp [arrangeN, addrow, addrowEmpty, errMsg, List.find?]

/-- Witness for C7: a state whose records are all consumed exhausts by
advancing the scan past the horizon, and the driver turns that into normal
termination. -/
theorem exhaustion_protocol_witness :
    arrangeN ⟨[⟨1, 1, Comment.num 0⟩], [], [], 0⟩ [⟨1, 100⟩] 10 1
      ⟨[⟨1, -100, 100⟩], [⟨1, [(1, 100)]⟩], none⟩ =
      .ok ⟨[⟨1, -100, 100⟩], [⟨1, [(1, 100)]⟩], none⟩ := by
  have hx : addrow ⟨[⟨1, 1, Comment.num 0⟩], [], [], 0⟩ [⟨1, 100⟩] 10
      ⟨[⟨1, -100, 100⟩], [⟨1, [(1, 100)]⟩], none⟩ = .error XErr.exhaustion := by
    norm_num [addrow, addrowAdvance, nextStart, scanDate, scanDateF, stopFun,
      List.getLast?]
  exact exhaustion_protocol.2.1 ⟨[⟨1, 1, Comment.num 0⟩], [], [], 0⟩
    [⟨1, 100⟩] 10 0 ⟨[⟨1, -100, 100⟩], [⟨1, [(1, 100)]⟩], none⟩ hx

/-- Counterexample for C3: prices exist only on day 1, a buy is recorded on
day 1 and a sell-all on day 2.  The second step's date resolver finds no
later priced date and falls back to day 1, so the ledger receives two rows
both dated day 1: the cash-flow ledger dates are [1, 1], which is not
strictly increasing. -/
theorem cfdates_strict_increase_cex :
    Except.bind
      (addrow ⟨[⟨1, 1, Comment.num 0⟩], [], [], 0⟩
        [⟨1, 100⟩, ⟨2, -(1/200)⟩] 10 ⟨[], [], none⟩)
      (addrow ⟨[⟨1, 1, Comment.num 0⟩], [], [], 0⟩
        [⟨1, 100⟩, ⟨2, -(1/200)⟩] 10) =
      .ok ⟨[⟨1, -100, 100⟩, ⟨1, 100, -100⟩], [⟨1, [(1, 100)]⟩, ⟨1, []⟩],
           some 2⟩ ∧
    cfDates ⟨[⟨1, -100, 100⟩, ⟨1, 100, -100⟩], [⟨1, [(1, 100)]⟩, ⟨1, []⟩],
      some 2⟩ = [1, 1] ∧
    ¬ strictIncreasing [1, 1] := by
  refine ⟨?_, rfl, by simp [strictIncreasing, List.chain'_cons]⟩
  have h1 : addrow ⟨[⟨1, 1, Comment.num 0⟩], [], [], 0⟩
      [⟨1, 100⟩, ⟨2, -(1/200)⟩] 10 ⟨[], [], none⟩ =
      .ok ⟨[⟨1, -100, 100⟩], [⟨1, [(1, 100)]⟩], none⟩ := by
    norm_num [addrow, addrowEmpty, List.find?, shengou, navOn, myround,
      rm_buy, List.filter]
  have h2 : addrow ⟨[⟨1, 1, Comment.num 0⟩], [], [], 0⟩
      [⟨1, 100⟩, ⟨2, -(1/200)⟩] 10
      ⟨[⟨1, -100, 100⟩], [⟨1, [(1, 100)]⟩], none⟩ =
      .ok ⟨[⟨1, -100, 100⟩, ⟨1, 100, -100⟩], [⟨1, [(1, 100)]⟩, ⟨1, []⟩],
           some 2⟩ := by
    norm_num [addrow, addrowAdvance, nextStart, scanDate, scanDateF, stopFun,
      resolveDate, liftOpt, recordAction, applyFenhong, fenhongmark,
      pyround1, pytrunc, rhe, decode_value, shuhui, navOn, myround, remsum,
      rm_sell, List.filter, List.getLast?, List.find?]
  rw [h1]
  simp only [Except.bind]
  exact h2

/-- C3 as amended: the cash-flow ledger dates strictly increase across a step
whenever the date resolver resolves forward, i.e. some priced date at or
after the advanced candidate date exists; in the backward-fallback case the
appended row's date can coincide with or precede the previous row's date (see
the counterexample), so strict monotonicity holds only for forward
resolution. -/
theorem cfdates_forward_increase (aim : Aim) (status : List StatusRow)
    (y : ℕ) (s s' : TradeState) (lastrow newrow : CFRow)
    (hl : s.cftable.getLast? = some lastrow)
    (hld : ∀ ld, s.lastdate = some ld → lastrow.date ≤ ld)
    (hfwd : ∀ d, scanDate (stopFun aim status) y (nextStart s lastrow) = .ok d →
      (aim.price.filter (fun p => decide (d ≤ p.date))) ≠ [])
    (h : addrow aim status y s = .ok s')
    (hnew : s'.cftable.getLast? = some newrow) :
    lastrow.date < newrow.date := by
  unfold addrow at h
  rw [hl] at h
  dsimp only at h
  unfold addrowAdvance at h
  cases hscan : scanDate (stopFun aim status) y (nextStart s lastrow) with
  | error e =>
    rw [hscan] at h
    exact Except.noConfusion h
  | ok d =>
    rw [hscan] at h
    dsimp only at h
    have hd1 : nextStart s lastrow ≤ d := scanDate_ok_le _ _ _ _ hscan
    have hd0 : lastrow.date < nextStart s lastrow := by
      unfold nextStart
      cases hsl : s.lastdate with
      | none =>
        dsimp only
        omega
      | some ld =>
        have := hld ld hsl
        dsimp only
        omega
    have hne := hfwd d hscan
    obtain ⟨p, hp⟩ : ∃ p,
        (aim.price.filter (fun p => decide (d ≤ p.date))).head? = some p := by
      cases hh : (aim.price.filter (fun p => decide (d ≤ p.date))).head? with
      | none => exact absurd (List.head?_eq_none_iff.mp hh) hne
      | some p => exact ⟨p, rfl⟩
    have hdp : d ≤ p.date := by
      have hmem : p ∈ aim.price.filter (fun p => decide (d ≤ p.date)) :=
        List.mem_of_mem_head? hp
      have := List.of_mem_filter hmem
      simpa using this
    have hres : resolveDate aim d = .ok p.date := by
      unfold resolveDate
      rw [hp]
    rw [hres] at h
    dsimp only at h
    cases hopt : liftOpt s.remtable.getLast? with
    | error e =>
      rw [hopt] at h
      exact Except.noConfusion h
    | ok remrow =>
      rw [hopt] at h
      dsimp only at h
      split at h
      · exact Except.noConfusion h
      · rename_i label rdate cash1 share1 rem1 heq
        have hrd : rdate = p.date := by
          by_cases hc : ((status.any fun r => r.date == d) &&
              !aim.zhesuandate.contains p.date) = true
          · rw [if_pos hc] at heq
            exact recordAction_rdate _ _ _ _ _ _ _ _ _ _ _ _ heq
          · rw [if_neg hc] at heq
            injection heq with heq
            simp only [Prod.mk.injEq] at heq
            exact heq.2.1.symm
        split at h
        · split at h
          · exact Except.noConfusion h
          · split at h
            · exact Except.noConfusion h
            · injection h with h
              subst h
              rw [List.getLast?_concat] at hnew
              injection hnew with hnew
              rw [← hnew]
              dsimp only
              rw [hrd]
              omega
        · injection h with h
          subst h
          rw [List.getLast?_concat] at hnew
          injection hnew with hnew
          rw [← hnew]
          dsimp only
          rw [hrd]
          omega

/-- Witness for C3: with a priced date (day 3) after the stop day (day 2) the
resolver goes forward and the appended row is strictly later than the
previous one (day 1 to day 3). -/
theorem cfdates_forward_increase_witness :
    addrow ⟨[⟨1, 1, Comment.num 0⟩, ⟨3, 1, Comment.num 0⟩], [], [], 0⟩
      [⟨1, 100⟩, ⟨2, -1⟩] 10 ⟨[⟨1, -100, 100⟩], [⟨1, [(1, 100)]⟩], none⟩ =
      .ok ⟨[⟨1, -100, 100⟩, ⟨3, 1, -1⟩], [⟨1, [(1, 100)]⟩, ⟨3, [(1, 99)]⟩],
           some 3⟩ ∧
    (1 : ℕ) < 3 := by
  have hstep : addrow ⟨[⟨1, 1, Comment.num 0⟩, ⟨3, 1, Comment.num 0⟩],
      [], [], 0⟩ [⟨1, 100⟩, ⟨2, -1⟩] 10
      ⟨[⟨1, -100, 100⟩], [⟨1, [(1, 100)]⟩], none⟩ =
      .ok ⟨[⟨1, -100, 100⟩, ⟨3, 1, -1⟩], [⟨1, [(1, 100)]⟩, ⟨3, [(1, 99)]⟩],
           some 3⟩ := by
    norm_num [addrow, addrowAdvance, nextStart, scanDate, scanDateF, stopFun,
      resolveDate, liftOpt, recordAction, applyFenhong, fenhongmark,
      pyround1, pytrunc, rhe, decode_value, shuhui, navOn, myround, remsum,
      rm_sell, List.filter, List.getLast?, List.find?]
  refine ⟨hstep, ?_⟩
  have hscan2 : scanDate
      (stopFun ⟨[⟨1, 1, Comment.num 0⟩, ⟨3, 1, Comment.num 0⟩], [], [], 0⟩
        [⟨1, 100⟩, ⟨2, -1⟩]) 10
      (nextStart ⟨[⟨1, -100, 100⟩], [⟨1, [(1, 100)]⟩], none⟩
        ⟨1, -100, 100⟩) = .ok 2 := by
    norm_num [scanDate, scanDateF, stopFun, nextStart]
  exact cfdates_forward_increase
    ⟨[⟨1, 1, Comment.num 0⟩, ⟨3, 1, Comment.num 0⟩], [], [], 0⟩
    [⟨1, 100⟩, ⟨2, -1⟩] 10
    ⟨[⟨1, -100, 100⟩], [⟨1, [(1, 100)]⟩], none⟩
    ⟨[⟨1, -100, 100⟩, ⟨3, 1, -1⟩], [⟨1, [(1, 100)]⟩, ⟨3, [(1, 99)]⟩], some 3⟩
    ⟨1, -100, 100⟩ ⟨3, 1, -1⟩ rfl
    (fun ld hld => Option.noConfusion hld)
    (fun d hd => by
      rw [hscan2] at hd
      injection hd with hd
      subst hd
      simp [List.filter])
    hstep rfl
